import Mathlib

/-!
Shallow embedding of the timestamp-formatting and frame-timing core of
`timergen.py` (functions `get_units_from_milliseconds`, `format_time` with its
inner `replacer`, `millis_counts`, and the schedule part of `generate_frames`),
together with theorems settling the frozen claims about that code.

Modelling conventions:
* Python `int` is `ℤ`; Python `//` and `%` on integers are `Int.fdiv` / `Int.fmod`
  (floor division, remainder with the divisor's sign), matching CPython.
* The CLI `duration` is modelled as an exact rational `ℚ` (the specification's
  "non-negative real number of seconds"); `int(x)` truncates toward zero and
  `x % 1` is `x - floor x`, as in Python.
* `format_time` raising an exception is modelled by `Except Err`; the final
  `rx.sub(replacer, fmt) % ()` step is modelled by a scanner over the pattern
  (the regex `%((-?\d+)?[HMSm]|%)` applied left to right, non-overlapping, as
  `re.sub` does) followed by `pyFormatEmpty`, the behaviour of CPython's
  `str.__mod__` with an empty argument tuple: `%%` yields a literal `%` and any
  other `%`-spec raises (`TypeError` when a conversion would fetch an argument
  or a mapping, `ValueError "incomplete format"` when the string ends inside a
  spec).  The regex is compiled from a `str` pattern, so its class `\d`
  matches the Unicode decimal digits (category Nd), which `int()` also parses;
  `isPyDigit`/`pyDigitVal` encode that category as its 66 runs of ten
  consecutive code points with digit values 0-9 (Unicode 14.0, as shipped with
  CPython 3.11).
-/

/-- Error kinds raised by the modelled code paths (Python exception classes). -/
inductive Err where
  | valueError (msg : String)
  | typeError (msg : String)
  | zeroDivisionError
  deriving DecidableEq, Repr

instance {ε α : Type} [DecidableEq ε] [DecidableEq α] : DecidableEq (Except ε α) :=
  fun x y =>
    match x, y with
    | .ok a, .ok b => decidable_of_iff (a = b) (by simp)
    | .ok _, .error _ => isFalse (by simp)
    | .error _, .ok _ => isFalse (by simp)
    | .error e, .error f => decidable_of_iff (e = f) (by simp)

/-- Python `divmod` on integers (floor division and floor remainder). -/
def pyDivMod (a b : ℤ) : ℤ × ℤ := (Int.fdiv a b, Int.fmod a b)

/-- `get_units_from_milliseconds` from the source: successive `divmod` by 1000,
60, 60 giving `(hours, mins, secs, millis)`. -/
def get_units_from_milliseconds (milliseconds : ℤ) : ℤ × ℤ × ℤ × ℤ :=
  let sm := pyDivMod milliseconds 1000
  let ms := pyDivMod sm.1 60
  let hm := pyDivMod ms.1 60
  (hm.1, hm.2, ms.2, sm.2)

/-- `get_units_from_seconds` from the source. -/
def get_units_from_seconds (seconds : ℤ) : ℤ × ℤ × ℤ × ℤ :=
  get_units_from_milliseconds (seconds * 1000)

/-- The ASCII digit character for `n < 10`. -/
def digitChar (n : ℕ) : Char := Char.ofNat (48 + n)

/-- Fuel-driven decimal digit expansion (most significant first). -/
def toDigitsGo : ℕ → ℕ → List Char
  | 0, _ => []
  | f + 1, n =>
    if n < 10 then [digitChar n]
    else toDigitsGo f (n / 10) ++ [digitChar (n % 10)]

/-- Python `str` of a non-negative integer. -/
def pyStrNat (n : ℕ) : List Char := toDigitsGo (n + 1) n

/-- Python `str` of an integer. -/
def pyStrInt (z : ℤ) : List Char :=
  if z < 0 then '-' :: pyStrNat (-z).toNat else pyStrNat z.toNat

/-- Python `s.rjust(w, fill)`. -/
def pyRjust (w : ℤ) (fill : Char) (s : List Char) : List Char :=
  if (s.length : ℤ) < w then List.replicate (w.toNat - s.length) fill ++ s else s

/-- The slicing step of `replacer`: `s[dig:]` when `dig < 0` (keep the last
`|dig|` characters), `s[:dig]` when `dig > 0` (keep the first `dig`). -/
def pySliceByWidth (dig : ℤ) (s : List Char) : List Char :=
  if dig < 0 then s.drop (s.length - dig.natAbs) else s.take dig.toNat

/-- The `default_digs` dict of `replacer`: `{"H": -2, "M": -2, "S": -2, "m": 3}`. -/
def default_digs (u : Char) : ℤ :=
  if u = 'H' then -2 else if u = 'M' then -2 else if u = 'S' then -2
  else if u = 'm' then 3 else 0

/-- The stored width computed by `replacer`: the per-unit default when no digits
were written, and the negation `-int(dig)` of the parsed digits otherwise. -/
def storedWidth (digOpt : Option ℤ) (u : Char) : ℤ :=
  match digOpt with
  | none => default_digs u
  | some n => -n

/-- The `{"H": hr, "M": min, "S": sec, "m": ms}` lookup of `replacer`. -/
def unitVal (tu : ℤ × ℤ × ℤ × ℤ) (u : Char) : ℤ :=
  if u = 'H' then tu.1 else if u = 'M' then tu.2.1 else if u = 'S' then tu.2.2.1
  else if u = 'm' then tu.2.2.2 else 0

/-- One directive substitution of `replacer` (the non-escape branch): compute
the stored width, reject width 0, zero-pad `str(value)` on the left to
`max(abs(dig), default_digs[u])` and slice. -/
def replacer (tu : ℤ × ℤ × ℤ × ℤ) (digOpt : Option ℤ) (u : Char) :
    Except Err (List Char) :=
  let dig := storedWidth digOpt u
  if dig = 0 then .error (.valueError "width cannot be 0")
  else
    .ok (pySliceByWidth dig
      (pyRjust (max (dig.natAbs : ℤ) (default_digs u)) '0' (pyStrInt (unitVal tu u))))

/-- Is the character one of the unit letters `[HMSm]`? -/
def isUnitChar (c : Char) : Bool := c = 'H' || c = 'M' || c = 'S' || c = 'm'

/-- The first code point of every run of Unicode decimal digits (category Nd,
Unicode 14.0): each run is ten consecutive code points with digit values 0-9.
CPython's `str`-pattern `\d` and `int()` both accept exactly these. -/
def pyDigitBases : List ℕ :=
  [48, 1632, 1776, 1984, 2406, 2534, 2662, 2790, 2918, 3046, 3174, 3302, 3430,
   3558, 3664, 3792, 3872, 4160, 4240, 6112, 6160, 6470, 6608, 6784, 6800,
   6992, 7088, 7232, 7248, 42528, 43216, 43264, 43472, 43504, 43600, 44016,
   65296, 66720, 68912, 69734, 69872, 69942, 70096, 70384, 70736, 70864,
   71248, 71360, 71472, 71904, 72016, 72784, 73040, 73120, 92768, 92864,
   93008, 120782, 120792, 120802, 120812, 120822, 123200, 123632, 125264,
   130032]

/-- Does the regex class `\d` (a Unicode decimal digit) match the character? -/
def isPyDigit (c : Char) : Bool :=
  pyDigitBases.any (fun b => b ≤ c.toNat && c.toNat < b + 10)

/-- The decimal value of a Unicode decimal digit (0 on non-digits). -/
def pyDigitVal (c : Char) : ℕ :=
  match pyDigitBases.find? (fun b => b ≤ c.toNat && c.toNat < b + 10) with
  | some b => c.toNat - b
  | none => 0

/-- Python `int` of a non-empty string of Unicode decimal digits. -/
def digitsVal (ds : List Char) : ℕ := ds.foldl (fun a c => 10 * a + pyDigitVal c) 0

/-- Match the directive alternative `(-?\d+)?[HMSm]` of the regex against the
characters following a `%`.  Returns the parsed digits (the integer as written,
before `replacer` negates it), the unit letter, and the remaining characters. -/
def matchDirective (cs : List Char) : Option (Option ℤ × Char × List Char) :=
  if cs.head? = some '-' then
    match cs.tail.takeWhile isPyDigit, cs.tail.dropWhile isPyDigit with
    | [], _ => none
    | _ :: _, [] => none
    | d :: ds, u :: rest =>
      if isUnitChar u then some (some (-(digitsVal (d :: ds) : ℤ)), u, rest) else none
  else
    match cs.takeWhile isPyDigit, cs.dropWhile isPyDigit with
    | [], [] => none
    | _ :: _, [] => none
    | [], u :: rest => if isUnitChar u then some (none, u, rest) else none
    | d :: ds, u :: rest =>
      if isUnitChar u then some (some (digitsVal (d :: ds) : ℤ), u, rest) else none

/-- The `rx.sub(replacer, fmt)` pass: scan left to right; at each `%` try the
escape `%%` (which `replacer` rewrites to the two characters `%%`) or a
directive; characters that begin no match are copied unchanged.  Structured
with a fuel argument (one unit per scanned character) so that it computes by
kernel reduction; `fuel ≥ length` always holds at the call site. -/
def subGo (tu : ℤ × ℤ × ℤ × ℤ) : ℕ → List Char → Except Err (List Char)
  | _, [] => .ok []
  | 0, _ :: _ => .ok []
  | f + 1, c :: rest =>
    if c = '%' then
      if rest.head? = some '%' then
        (fun l => '%' :: '%' :: l) <$> subGo tu f rest.tail
      else
        match matchDirective rest with
        | some (digOpt, u, rest2) => do
          let rep ← replacer tu digOpt u
          let tl ← subGo tu f rest2
          pure (rep ++ tl)
        | none => (fun l => '%' :: l) <$> subGo tu f rest
    else (fun l => c :: l) <$> subGo tu f rest

/-- The last phases of CPython's `%`-spec parse: at most one length modifier
`h`/`l`/`L`, then the conversion character.  With no arguments, running out of
characters is `ValueError: incomplete format`; any conversion character means
an argument fetch, `TypeError: not enough arguments for format string`. -/
def pctSpecTail : List Char → Err
  | [] => .valueError "incomplete format"
  | c :: r =>
    if c = 'h' || c = 'l' || c = 'L' then
      match r with
      | [] => .valueError "incomplete format"
      | _ :: _ => .typeError "not enough arguments for format string"
    else .typeError "not enough arguments for format string"

/-- Classify the failure of a `%`-spec under CPython's `str.__mod__` with no
arguments, following the C parser's phases: optional flags `-+ #0`, a width
(ASCII digits, or `*` which fetches an argument), an optional precision
(`.` then ASCII digits or `*`), then `pctSpecTail`. -/
def pctSpecErr (cs : List Char) : Err :=
  let afterFlags := cs.dropWhile
    (fun c => c = '-' || c = '+' || c = ' ' || c = '#' || c = '0')
  if afterFlags.head? = some '*' then
    .typeError "not enough arguments for format string"
  else
    match afterFlags.dropWhile Char.isDigit with
    | '.' :: r =>
      if r.head? = some '*' then .typeError "not enough arguments for format string"
      else pctSpecTail (r.dropWhile Char.isDigit)
    | other => pctSpecTail other

/-- CPython's `s % ()` (an empty argument tuple): `%%` produces a literal `%`,
and every other `%`-spec raises. -/
def pyFormatEmpty : List Char → Except Err (List Char)
  | [] => .ok []
  | c :: rest =>
    if c = '%' then
      match rest with
      | [] => .error (.valueError "incomplete format")
      | r :: rest2 =>
        if r = '%' then (fun l => '%' :: l) <$> pyFormatEmpty rest2
        else if r = '(' then .error (.typeError "format requires a mapping")
        else .error (pctSpecErr rest)
    else (fun l => c :: l) <$> pyFormatEmpty rest

/-- `format_time(millis, fmt)` from the source: decompose the milliseconds,
substitute every regex match via `replacer`, then apply `% ()` to the result. -/
def format_time (millis : ℤ) (fmt : String) : Except Err String := do
  let tu := get_units_from_milliseconds millis
  let subbed ← subGo tu fmt.data.length fmt.data
  let out ← pyFormatEmpty subbed
  pure (String.mk out)

/-- `itertools.accumulate` (running sums) on a list of integers. -/
def pyAccumulateFrom (acc : ℤ) : List ℤ → List ℤ
  | [] => []
  | x :: xs => (acc + x) :: pyAccumulateFrom (acc + x) xs

/-- `accumulate(l)` starting from the first element. -/
def pyAccumulate (l : List ℤ) : List ℤ := pyAccumulateFrom 0 l

/-- `millis_counts(fps)` from the source:
`accumulate([0] + [1000 // fps] * (fps - 1))`.  Python evaluates `1000 // fps`
before building the list, so `fps = 0` raises `ZeroDivisionError`. -/
def millis_counts (fps : ℤ) : Except Err (List ℤ) :=
  if fps = 0 then .error .zeroDivisionError
  else .ok (pyAccumulate (0 :: List.replicate (fps - 1).toNat (Int.fdiv 1000 fps)))

/-- Python `int(q)` on a real value: truncation toward zero. -/
def pyTrunc (q : ℚ) : ℤ := if q < 0 then Rat.ceil q else Rat.floor q

/-- Python `q % 1` on a real value: `q - floor(q)`. -/
def pyMod1 (q : ℚ) : ℚ := q - (Rat.floor q : ℚ)

/-- The elapsed-time schedule built by `generate_frames` (lines 284-292 of the
source): for `i in range(int(duration))` the offsets of `millis_counts` shifted
by `i*1000`, then for the trailing partial second every offset strictly below
`duration % 1 * 1000`, labelled at `int(duration + 1) * 1000 + offset`. -/
def schedule (duration : ℚ) (fps : ℤ) : Except Err (List ℤ) := do
  let mc ← millis_counts fps
  let whole := (List.range (pyTrunc duration).toNat).flatMap
    (fun (i : ℕ) => mc.map (fun j => (i : ℤ) * 1000 + j))
  let tl := (mc.filter (fun (i : ℤ) => decide ((i : ℚ) < pyMod1 duration * 1000))).map
    (fun (i : ℤ) => pyTrunc (duration + 1) * 1000 + i)
  pure (whole ++ tl)

/-- The list `times` built by `generate_frames`: every scheduled elapsed time
rendered through `format_time` with the configured pattern. -/
def generate_frames (duration : ℚ) (fps : ℤ) (fmt : String) :
    Except Err (List String) := do
  let ts ← schedule duration fps
  ts.mapM (fun t => format_time t fmt)

/-- Does every `%` in the pattern begin a recognized escape or directive?
Mirrors the left-to-right scan of `re.sub` over the same regex. -/
def scanOkGo : ℕ → List Char → Bool
  | _, [] => true
  | 0, _ :: _ => true
  | f + 1, c :: rest =>
    if c = '%' then
      if rest.head? = some '%' then scanOkGo f rest.tail
      else
        match matchDirective rest with
        | some (_, _, rest2) => scanOkGo f rest2
        | none => false
    else scanOkGo f rest

/-- `scanOk p` is false exactly when `p` contains a `%` that is not part of a
recognized escape `%%` or directive under the regex scan. -/
def scanOk (p : String) : Bool := scanOkGo p.data.length p.data

/-- The positions of `%` characters in a string (everything the final `% ()`
step's control flow depends on). -/
def pctMask (l : List Char) : List Bool := l.map (fun c => decide (c = '%'))

/-- The directive substitution as the amended claim C1 words it: zero-pad
`str(value)` on the left to at least `max(|w|, d_u)` characters where `d_u` is
the SIGNED stored default (`-2` for `H`, `M`, `S` and `3` for `m`), then keep
the last `|w|` characters if `w < 0`, the first `w` if `w > 0`. -/
def specReplacerSignedPad (tu : ℤ × ℤ × ℤ × ℤ) (w : ℤ) (u : Char) : List Char :=
  pySliceByWidth w (pyRjust (max (w.natAbs : ℤ) (default_digs u)) '0'
    (pyStrInt (unitVal tu u)))

/-! ## Spec-side definitions used to state the claims -/

/-- The sub-frame offsets as the claims describe them:
`j * (1000 // fps)` for `j = 0 .. fps - 1`. -/
def specSubOffsets (fps : ℤ) : List ℤ :=
  (List.range fps.toNat).map (fun (j : ℕ) => (j : ℤ) * Int.fdiv 1000 fps)

/-- The whole-second part of the schedule as the claims describe it: second `i`
contributes `i*1000 + off` for each sub-frame offset, for `i ∈ [0, ⌊d⌋)`. -/
def specWholeEntries (d : ℚ) (fps : ℤ) : List ℤ :=
  (List.range (Rat.floor d).toNat).flatMap
    (fun (i : ℕ) => (specSubOffsets fps).map (fun off => (i : ℤ) * 1000 + off))

/-- The trailing partial-second part of the schedule as the claims describe it:
the sub-frame offsets strictly below `(d - ⌊d⌋) * 1000`, each labelled at
`(⌊d⌋ + 1) * 1000 + off`. -/
def specTailEntries (d : ℚ) (fps : ℤ) : List ℤ :=
  ((specSubOffsets fps).filter
    (fun (off : ℤ) => decide ((off : ℚ) < (d - (Rat.floor d : ℚ)) * 1000))).map
    (fun off => (Rat.floor d + 1) * 1000 + off)

/-- The directive substitution as claim C1 words it: zero-pad to at least
`max(|storedWidth|, |defaultWidth(u)|)` where `defaultWidth` is the absolute
conventional field size (2 for `H`, `M`, `S` and 3 for `m`).  This differs from
the source `replacer`, which takes `max(abs(dig), default_digs[u])` with the
signed dictionary value `default_digs[u]` itself. -/
def specReplacerAbsPad (tu : ℤ × ℤ × ℤ × ℤ) (digOpt : Option ℤ) (u : Char) :
    Except Err (List Char) :=
  let dig := storedWidth digOpt u
  if dig = 0 then .error (.valueError "width cannot be 0")
  else
    .ok (pySliceByWidth dig
      (pyRjust (max (dig.natAbs : ℤ) (((default_digs u).natAbs : ℤ))) '0'
        (pyStrInt (unitVal tu u))))

example : format_time 3725007 "%H:%M:%S.%m" = .ok "01:02:05.007" := rfl
example : format_time 65000 "%-2H:%M:%S" = .ok "00:01:05" := rfl
example : format_time 999 "%2m" = .ok "99" := rfl
example : format_time 999 "%-2m" = .ok "99" := rfl
example : format_time 0 "%0H" = .error (.valueError "width cannot be 0") := rfl
example : format_time 0 "%z" = .error (.typeError "not enough arguments for format string") := rfl
example : format_time 999 "%٢m" = .ok "99" := rfl
example : scanOk "%٢m" = true := rfl
example : scanOk "%z" = false := rfl
example : format_time 0 "%5h3" = .error (.typeError "not enough arguments for format string") := rfl
example : format_time 0 "%h" = .error (.valueError "incomplete format") := rfl
example : format_time 12345 "%%" = .ok "%" := rfl
example : millis_counts 4 = .ok [0, 250, 500, 750] := rfl
unseal Rat.add Rat.sub Rat.mul in
example : schedule (mkRat 5 2) 4 =
    .ok [0, 250, 500, 750, 1000, 1250, 1500, 1750, 3000, 3250] := by decide
unseal Rat.add Rat.sub Rat.mul in
example : schedule (mkRat (-5) 2) 4 = .ok [-1000, -750] := by decide
unseal Rat.add Rat.sub Rat.mul in
example : schedule 2 (-5) = .ok [0, 1000] := by decide
example : format_time 18000000 "%-1H" = .ok "5" := rfl

/-- `Rat.floor` (used in the executable definitions) is the mathematical floor. -/
theorem ratFloor_eq_intFloor (q : ℚ) : Rat.floor q = ⌊q⌋ :=
  (Rat.floor_def' q).trans Rat.floor_def.symm

/-! ## Helper lemmas -/

theorem fdiv_eq_ediv_1000 (a : ℤ) : Int.fdiv a 1000 = a / 1000 :=
  Int.fdiv_eq_ediv a (by decide)

theorem fmod_eq_emod_1000 (a : ℤ) : Int.fmod a 1000 = a % 1000 :=
  Int.fmod_eq_emod a (by decide)

theorem fdiv_eq_ediv_60 (a : ℤ) : Int.fdiv a 60 = a / 60 :=
  Int.fdiv_eq_ediv a (by decide)

theorem fmod_eq_emod_60 (a : ℤ) : Int.fmod a 60 = a % 60 :=
  Int.fmod_eq_emod a (by decide)

/-! ## Claims -/

/-- C5: for every non-negative integer `t`, decomposing `t` milliseconds into
`(hours, minutes, seconds, milliseconds)` and recombining via
`((H*60+M)*60+S)*1000+m` yields `t` exactly, with minutes and seconds in
`[0, 59]` and milliseconds in `[0, 999]`. -/
theorem claim_C5 (t : ℤ) (ht : 0 ≤ t) :
    match get_units_from_milliseconds t with
    | (h, m, s, ms) =>
      ((h * 60 + m) * 60 + s) * 1000 + ms = t
      ∧ 0 ≤ m ∧ m ≤ 59 ∧ 0 ≤ s ∧ s ≤ 59 ∧ 0 ≤ ms ∧ ms ≤ 999 := by
  simp only [get_units_from_milliseconds, pyDivMod, fdiv_eq_ediv_1000,
    fmod_eq_emod_1000, fdiv_eq_ediv_60, fmod_eq_emod_60]
  refine ⟨?_, ?_, ?_, ?_, ?_, ?_, ?_⟩ <;> omega

/-- Witness for C5 at `t = 3725007` (1 h 2 min 5 s 7 ms). -/
theorem claim_C5_witness :
    match get_units_from_milliseconds 3725007 with
    | (h, m, s, ms) =>
      ((h * 60 + m) * 60 + s) * 1000 + ms = 3725007
      ∧ 0 ≤ m ∧ m ≤ 59 ∧ 0 ≤ s ∧ s ≤ 59 ∧ 0 ≤ ms ∧ ms ≤ 999 :=
  claim_C5 3725007 (by decide)

/-- C9: the escape `%%` renders to a single literal `%`: for every elapsed
time `t`, `format_time t "%%" = "%"`. -/
theorem claim_C9 (t : ℤ) : format_time t "%%" = .ok "%" := rfl

/-- C3: an explicit digit string stores the negated parsed integer as the
width, so `%2m` keeps the last two digits of the milliseconds and `%-2m` the
first two; in particular `render(999, "%2m")` and `render(999, "%-2m")` are
both `"99"`. -/
theorem claim_C3 :
    (∀ (n : ℤ) (u : Char), storedWidth (some n) u = -n)
    ∧ format_time 999 "%2m" = .ok "99" ∧ format_time 999 "%-2m" = .ok "99" :=
  ⟨fun _ _ => rfl, rfl, rfl⟩

/-- Counterexample to C1 as stated: at elapsed time 18000000 ms (exactly 5
hours) the directive `%-1H` (stored width `1`, keep the first digit) renders
`"5"`, whereas padding to at least `max(|w|, |defaultWidth(H)|) = 2` characters
first, as the claim requires, would give `"05"` and hence substitute `"0"`. -/
theorem claim_C1_counterexample :
    format_time 18000000 "%-1H" = .ok "5"
    ∧ specReplacerAbsPad (get_units_from_milliseconds 18000000) (some (-1)) 'H' = .ok ['0']
    ∧ replacer (get_units_from_milliseconds 18000000) (some (-1)) 'H' = .ok ['5'] :=
  ⟨rfl, rfl, rfl⟩

unseal Rat.add Rat.sub Rat.mul in
theorem sched_runs_on_neg_duration : schedule (mkRat (-5) 2) 4 = .ok [-1000, -750] := by
  decide

unseal Rat.add Rat.sub Rat.mul in
theorem frames_run_on_neg_duration :
    generate_frames (mkRat (-5) 2) 4 "%S" = .ok ["59", "59"] := by
  decide

unseal Rat.add Rat.sub Rat.mul in
theorem sched_runs_on_neg_fps : schedule 2 (-5) = .ok [0, 1000] := by
  decide

/-- Counterexample to C6 as stated: schedule generation is not guarded at all.
At the invalid input duration = -5/2 s, fps = 4 the generator runs and returns
a schedule (and `generate_frames` renders it) instead of rejecting; at the
invalid input fps = -5, duration = 2 it likewise returns a schedule. -/
theorem claim_C6_counterexample :
    schedule (mkRat (-5) 2) 4 = .ok [-1000, -750]
    ∧ generate_frames (mkRat (-5) 2) 4 "%S" = .ok ["59", "59"]
    ∧ schedule 2 (-5) = .ok [0, 1000] :=
  ⟨sched_runs_on_neg_duration, frames_run_on_neg_duration, sched_runs_on_neg_fps⟩

/-- C6 amended: the code performs no duration/frame-rate validation; for every
duration and every non-zero frame rate (including negative ones) schedule
generation succeeds, and a zero frame rate fails only with `ZeroDivisionError`
raised inside schedule generation (from `1000 // fps` in `millis_counts`). -/
theorem claim_C6 :
    (∀ (d : ℚ) (fps : ℤ), fps ≠ 0 → ∃ l, schedule d fps = .ok l)
    ∧ ∀ d : ℚ, schedule d 0 = .error .zeroDivisionError := by
  constructor
  · intro d fps h
    unfold schedule millis_counts
    rw [if_neg h]
    exact ⟨_, rfl⟩
  · intro d
    unfold schedule millis_counts
    rw [if_pos rfl]
    rfl

/-- Witness for the amended C6 at duration = -5/2, fps = 4 and fps = 0. -/
theorem claim_C6_witness :
    ((4 : ℤ) ≠ 0 ∧ ∃ l, schedule (mkRat (-5) 2) 4 = .ok l)
    ∧ schedule (mkRat (-5) 2) 0 = .error .zeroDivisionError :=
  ⟨⟨by decide, claim_C6.1 (mkRat (-5) 2) 4 (by decide)⟩, claim_C6.2 (mkRat (-5) 2)⟩

theorem pyAccumulateFrom_replicate (q : ℤ) :
    ∀ (n : ℕ) (a : ℤ), pyAccumulateFrom a (List.replicate n q)
      = (List.range n).map (fun (j : ℕ) => a + ((j : ℤ) + 1) * q) := by
  intro n
  induction n with
  | zero => intro a; rfl
  | succ n ih =>
    intro a
    rw [List.replicate_succ, List.range_succ_eq_map]
    simp only [pyAccumulateFrom, List.map_cons, List.map_map, ih (a + q)]
    simp only [List.cons.injEq]
    refine ⟨by push_cast; ring, ?_⟩
    apply List.map_congr_left
    intro j _
    simp only [Function.comp_apply]
    push_cast
    ring

/-- For a positive frame rate, `millis_counts` produces exactly the offsets
`j * (1000 // fps)` for `j = 0 .. fps - 1`. -/
theorem millis_counts_eq (fps : ℤ) (hf : 0 < fps) :
    millis_counts fps = .ok (specSubOffsets fps) := by
  unfold millis_counts specSubOffsets
  rw [if_neg (by omega : ¬ fps = 0)]
  have hn : fps.toNat = (fps - 1).toNat + 1 := by omega
  rw [hn, List.range_succ_eq_map]
  unfold pyAccumulate
  simp only [pyAccumulateFrom, pyAccumulateFrom_replicate, List.map_cons, List.map_map,
    zero_add]
  simp only [Except.ok.injEq, List.cons.injEq]
  refine ⟨by simp, ?_⟩
  apply List.map_congr_left
  intro j _
  simp only [Function.comp_apply]
  push_cast
  ring

theorem pyTrunc_of_nonneg {d : ℚ} (hd : 0 ≤ d) : pyTrunc d = Rat.floor d := by
  unfold pyTrunc
  rw [if_neg (by exact not_lt.2 hd)]

theorem pyTrunc_add_one_of_nonneg {d : ℚ} (hd : 0 ≤ d) :
    pyTrunc (d + 1) = Rat.floor d + 1 := by
  unfold pyTrunc
  rw [if_neg (not_lt.2 (by linarith : (0 : ℚ) ≤ d + 1)), ratFloor_eq_intFloor,
    ratFloor_eq_intFloor, Int.floor_add_one]

theorem except_bind_ok {α β : Type} (a : α) (f : α → Except Err β) :
    (Except.ok a >>= f) = f a := rfl

/-- For a non-negative duration and positive frame rate, the schedule built by
`generate_frames` is exactly the whole-second entries followed by the
trailing partial-second entries, as the claims describe them. -/
theorem schedule_eq (d : ℚ) (fps : ℤ) (hd : 0 ≤ d) (hf : 0 < fps) :
    schedule d fps = .ok (specWholeEntries d fps ++ specTailEntries d fps) := by
  unfold schedule
  rw [millis_counts_eq fps hf, except_bind_ok]
  simp only [pyTrunc_of_nonneg hd, pyTrunc_add_one_of_nonneg hd, pyMod1]
  rfl

/-- C4: for duration `d ≥ 0` and positive `fps`, each integer second
`i ∈ [0, ⌊d⌋)` contributes exactly `fps` schedule entries at elapsed times
`i*1000 + j*(1000//fps)` for `j = 0 .. fps-1` — the flatMap in
`specWholeEntries` lists them in exactly that enumeration order, restarting
the offsets from `0` at every second boundary — and the sub-frame offsets are
monotonically increasing in `j`. -/
theorem claim_C4 (d : ℚ) (fps : ℤ) (hd : 0 ≤ d) (hf : 0 < fps) :
    schedule d fps = .ok (specWholeEntries d fps ++ specTailEntries d fps)
    ∧ (specWholeEntries d fps).length = (Rat.floor d).toNat * fps.toNat
    ∧ List.Pairwise (· ≤ ·) (specSubOffsets fps) := by
  refine ⟨schedule_eq d fps hd hf, ?_, ?_⟩
  · unfold specWholeEntries specSubOffsets
    simp [List.length_flatMap, Function.comp_def, List.map_const', List.sum_const_nat]
  · unfold specSubOffsets
    rw [List.pairwise_map]
    refine (List.pairwise_lt_range _).imp ?_
    intro a b h
    have hq : 0 ≤ Int.fdiv 1000 fps := Int.fdiv_nonneg (by omega) (by omega)
    have hab : (a : ℤ) ≤ (b : ℤ) := by exact_mod_cast Nat.le_of_lt h
    exact mul_le_mul_of_nonneg_right hab hq

/-- Witness for C4 at duration 5/2, fps 4. -/
theorem claim_C4_witness :
    schedule (mkRat 5 2) 4 = .ok (specWholeEntries (mkRat 5 2) 4 ++ specTailEntries (mkRat 5 2) 4)
    ∧ (specWholeEntries (mkRat 5 2) 4).length = (Rat.floor (mkRat 5 2)).toNat * (4 : ℤ).toNat
    ∧ List.Pairwise (· ≤ ·) (specSubOffsets 4) :=
  claim_C4 (mkRat 5 2) 4 (by decide) (by decide)

/-- C2: for duration `d ≥ 0` with positive fractional part and positive `fps`,
the schedule is the whole-second entries followed by exactly the sub-frame
offsets `j*(1000//fps)` that are strictly below `(d - ⌊d⌋)*1000`, each labelled
at `(⌊d⌋+1)*1000 + offset` (`specTailEntries`), so every trailing entry rolls
forward into the next whole second (is at least `(⌊d⌋+1)*1000`). -/
theorem claim_C2 (d : ℚ) (fps : ℤ) (hd : 0 ≤ d) (hf : 0 < fps)
    (hfrac : 0 < d - (Rat.floor d : ℚ)) :
    schedule d fps = .ok (specWholeEntries d fps ++ specTailEntries d fps)
    ∧ ∀ e ∈ specTailEntries d fps, (Rat.floor d + 1) * 1000 ≤ e := by
  refine ⟨schedule_eq d fps hd hf, ?_⟩
  intro e he
  unfold specTailEntries at he
  rw [List.mem_map] at he
  obtain ⟨off, hoff, rfl⟩ := he
  have hmem := (List.mem_filter.1 hoff).1
  unfold specSubOffsets at hmem
  rw [List.mem_map] at hmem
  obtain ⟨j, _, rfl⟩ := hmem
  have hq : 0 ≤ Int.fdiv 1000 fps := Int.fdiv_nonneg (by omega) (by omega)
  have : 0 ≤ (j : ℤ) * Int.fdiv 1000 fps := mul_nonneg (Int.natCast_nonneg j) hq
  omega

-- Witness for C2 at duration 5/2, fps 4.
unseal Rat.sub in
theorem claim_C2_witness :
    schedule (mkRat 5 2) 4 = .ok (specWholeEntries (mkRat 5 2) 4 ++ specTailEntries (mkRat 5 2) 4)
    ∧ ∀ e ∈ specTailEntries (mkRat 5 2) 4, (Rat.floor (mkRat 5 2) + 1) * 1000 ≤ e :=
  claim_C2 (mkRat 5 2) 4 (by decide) (by decide) (by decide)

/-! ## Scanner machinery -/

theorem subGo_cons (tu : ℤ × ℤ × ℤ × ℤ) (f : ℕ) (c : Char) (rest : List Char) :
    subGo tu (f + 1) (c :: rest) =
      if c = '%' then
        if rest.head? = some '%' then
          (fun l => '%' :: '%' :: l) <$> subGo tu f rest.tail
        else
          match matchDirective rest with
          | some (digOpt, u, rest2) => do
            let rep ← replacer tu digOpt u
            let tl ← subGo tu f rest2
            pure (rep ++ tl)
          | none => (fun l => '%' :: l) <$> subGo tu f rest
      else (fun l => c :: l) <$> subGo tu f rest := rfl

theorem matchDirective_length {cs rest : List Char} {digOpt : Option ℤ} {u : Char}
    (h : matchDirective cs = some (digOpt, u, rest)) : rest.length < cs.length := by
  unfold matchDirective at h
  split at h
  · rename_i hhead
    have hcs : cs.length = cs.tail.length + 1 := by
      cases cs with
      | nil => simp at hhead
      | cons a l => simp
    have hsum := congrArg List.length (List.takeWhile_append_dropWhile isPyDigit cs.tail)
    rw [List.length_append] at hsum
    split at h
    · exact absurd h (by simp)
    · exact absurd h (by simp)
    · rename_i ds' hds' hdrop
      split at h
      · cases h
        rw [hds'] at hsum
        simp only [hdrop, List.length_cons] at hsum
        omega
      · exact absurd h (by simp)
  · have hsum := congrArg List.length (List.takeWhile_append_dropWhile isPyDigit cs)
    rw [List.length_append] at hsum
    split at h
    · exact absurd h (by simp)
    · exact absurd h (by simp)
    · rename_i hds' hdrop
      split at h
      · cases h
        simp only [hdrop, List.length_cons] at hsum
        omega
      · exact absurd h (by simp)
    · rename_i ds' hds' hdrop
      split at h
      · cases h
        rw [hds'] at hsum
        simp only [hdrop, List.length_cons] at hsum
        omega
      · exact absurd h (by simp)

theorem subGo_succ (tu : ℤ × ℤ × ℤ × ℤ) :
    ∀ (f : ℕ) (cs : List Char), cs.length ≤ f → subGo tu (f + 1) cs = subGo tu f cs := by
  intro f
  induction f with
  | zero =>
    intro cs h
    interval_cases hcs : cs.length
    rw [List.length_eq_zero] at hcs
    subst hcs
    rfl
  | succ f ih =>
    intro cs h
    cases cs with
    | nil => rfl
    | cons c rest =>
      rw [subGo_cons, subGo_cons]
      by_cases hc : c = '%'
      · rw [if_pos hc, if_pos hc]
        by_cases hh : rest.head? = some '%'
        · rw [if_pos hh, if_pos hh, ih rest.tail (by simp at h ⊢; omega)]
        · rw [if_neg hh, if_neg hh]
          cases hmd : matchDirective rest with
          | some v =>
            obtain ⟨digOpt, u, rest2⟩ := v
            have hlen := matchDirective_length hmd
            simp only [List.length_cons] at h
            simp only [ih rest2 (by omega : rest2.length ≤ f)]
          | none =>
            simp only [List.length_cons] at h
            simp only [ih rest (by omega : rest.length ≤ f)]
      · rw [if_neg hc, if_neg hc]
        simp only [List.length_cons] at h
        rw [ih rest (by omega)]

theorem subGo_fuel (tu : ℤ × ℤ × ℤ × ℤ) :
    ∀ (f g : ℕ) (cs : List Char), cs.length ≤ f → cs.length ≤ g →
      subGo tu f cs = subGo tu g cs := by
  have key : ∀ (k f : ℕ) (cs : List Char), cs.length ≤ f →
      subGo tu (f + k) cs = subGo tu f cs := by
    intro k
    induction k with
    | zero => intro f cs h; rfl
    | succ k ih =>
      intro f cs h
      have : f + (k + 1) = (f + k) + 1 := by omega
      rw [this, subGo_succ tu (f + k) cs (by omega), ih f cs h]
  intro f g cs hf hg
  have h1 : f = cs.length + (f - cs.length) := by omega
  have h2 : g = cs.length + (g - cs.length) := by omega
  rw [h1, h2, key _ _ _ (le_refl _), key _ _ _ (le_refl _)]

theorem pyFormatEmpty_nopct_head {c : Char} (h : c ≠ '%') (rest : List Char) :
    pyFormatEmpty (c :: rest) = (fun l => c :: l) <$> pyFormatEmpty rest := by
  rw [pyFormatEmpty.eq_def]
  simp [h]

theorem pyFormatEmpty_pct_pct (rest2 : List Char) :
    pyFormatEmpty ('%' :: '%' :: rest2) = (fun l => '%' :: l) <$> pyFormatEmpty rest2 := by
  rw [pyFormatEmpty.eq_def]
  simp

theorem pyFormatEmpty_pct_end :
    pyFormatEmpty ['%'] = .error (.valueError "incomplete format") := by
  rw [pyFormatEmpty.eq_def]
  simp

theorem pyFormatEmpty_pct_bad {r : Char} (h : r ≠ '%') (rest2 : List Char) :
    ∃ e, pyFormatEmpty ('%' :: r :: rest2) = .error e := by
  by_cases hr : r = '('
  · subst hr
    exact ⟨.typeError "format requires a mapping", by rw [pyFormatEmpty.eq_def]; simp [h]⟩
  · exact ⟨pctSpecErr (r :: rest2), by rw [pyFormatEmpty.eq_def]; simp [h, hr]⟩

/-- A `%`-free prefix is passed through the substitution scan unchanged. -/
theorem sub_append_nofmt (tu : ℤ × ℤ × ℤ × ℤ) :
    ∀ (pre rest : List Char) (f : ℕ), (∀ c ∈ pre, c ≠ '%') →
      pre.length + rest.length ≤ f →
      subGo tu f (pre ++ rest) = (fun l => pre ++ l) <$> subGo tu f rest := by
  intro pre
  induction pre with
  | nil =>
    intro rest f _ _
    simp only [List.nil_append]
    cases subGo tu f rest <;> rfl
  | cons c pre ih =>
    intro rest f hnp hf
    have hc : c ≠ '%' := hnp c (List.mem_cons_self c _)
    simp only [List.length_cons] at hf
    obtain ⟨f', rfl⟩ : ∃ f', f = f' + 1 := ⟨f - 1, by omega⟩
    rw [List.cons_append, subGo_cons, if_neg hc,
      ih rest f' (fun c hc => hnp c (List.mem_cons_of_mem _ hc)) (by omega),
      subGo_fuel tu f' (f' + 1) rest (by omega) (by omega)]
    cases subGo tu (f' + 1) rest <;> rfl

/-- A `%`-free prefix is passed through the final `% ()` step unchanged. -/
theorem pyFormatEmpty_append_nofmt :
    ∀ (a b : List Char), (∀ c ∈ a, c ≠ '%') →
      pyFormatEmpty (a ++ b) = (fun l => a ++ l) <$> pyFormatEmpty b := by
  intro a
  induction a with
  | nil =>
    intro b _
    simp only [List.nil_append]
    cases pyFormatEmpty b <;> rfl
  | cons c a ih =>
    intro b hnp
    have hc : c ≠ '%' := hnp c (List.mem_cons_self c _)
    rw [List.cons_append, pyFormatEmpty_nopct_head hc,
      ih b (fun c hc => hnp c (List.mem_cons_of_mem _ hc))]
    cases pyFormatEmpty b <;> rfl

theorem digitChar_isDigit {k : ℕ} (hk : k < 10) : (digitChar k).isDigit = true := by
  interval_cases k <;> decide

theorem toDigitsGo_digits : ∀ (f n : ℕ), ∀ c ∈ toDigitsGo f n, c.isDigit = true := by
  intro f
  induction f with
  | zero => intro n c hc; simp [toDigitsGo] at hc
  | succ f ih =>
    intro n c hc
    rw [toDigitsGo] at hc
    split at hc
    · rename_i h10
      simp only [List.mem_singleton] at hc
      subst hc
      exact digitChar_isDigit h10
    · rw [List.mem_append] at hc
      rcases hc with hc | hc
      · exact ih _ c hc
      · simp only [List.mem_singleton] at hc
        subst hc
        exact digitChar_isDigit (Nat.mod_lt _ (by omega))

theorem isDigit_ne_pct {c : Char} (h : c.isDigit = true) : c ≠ '%' := by
  intro he
  subst he
  simp at h

theorem pyStrInt_chars (z : ℤ) : ∀ c ∈ pyStrInt z, c ≠ '%' := by
  intro c hc
  unfold pyStrInt pyStrNat at hc
  split at hc
  · rcases List.mem_cons.1 hc with rfl | hc
    · decide
    · exact isDigit_ne_pct (toDigitsGo_digits _ _ c hc)
  · exact isDigit_ne_pct (toDigitsGo_digits _ _ c hc)

/-- Every character substituted by `replacer` for a directive is a digit or a
minus sign, never a `%`. -/
theorem replacer_chars {tu : ℤ × ℤ × ℤ × ℤ} {digOpt : Option ℤ} {u : Char}
    {rep : List Char} (h : replacer tu digOpt u = .ok rep) : ∀ c ∈ rep, c ≠ '%' := by
  simp only [replacer] at h
  split at h
  · exact absurd h (by simp)
  · simp only [Except.ok.injEq] at h
    subst h
    intro c hc
    unfold pySliceByWidth at hc
    have hc2 : c ∈ pyRjust (max ((storedWidth digOpt u).natAbs : ℤ) (default_digs u)) '0'
        (pyStrInt (unitVal tu u)) := by
      split at hc
      · exact List.mem_of_mem_drop hc
      · exact List.mem_of_mem_take hc
    unfold pyRjust at hc2
    split at hc2
    · rcases List.mem_append.1 hc2 with hc3 | hc3
      · rw [List.eq_of_mem_replicate hc3]; decide
      · exact pyStrInt_chars _ c hc3
    · exact pyStrInt_chars _ c hc2

theorem pyRjust_length (w : ℤ) (fill : Char) (s : List Char) :
    (pyRjust w fill s).length = max s.length w.toNat := by
  unfold pyRjust
  split
  · rename_i hlt
    rw [List.length_append, List.length_replicate]
    omega
  · rename_i hge
    omega

/-- The text substituted by `replacer` for a directive has exactly
`|storedWidth|` characters. -/
theorem replacer_length {tu : ℤ × ℤ × ℤ × ℤ} {digOpt : Option ℤ} {u : Char}
    {rep : List Char} (h : replacer tu digOpt u = .ok rep) :
    rep.length = (storedWidth digOpt u).natAbs := by
  simp only [replacer] at h
  split at h
  · exact absurd h (by simp)
  · rename_i hne
    simp only [Except.ok.injEq] at h
    subst h
    have hlen := pyRjust_length (max ((storedWidth digOpt u).natAbs : ℤ) (default_digs u)) '0'
      (pyStrInt (unitVal tu u))
    have hmax : ((storedWidth digOpt u).natAbs : ℤ)
        ≤ max ((storedWidth digOpt u).natAbs : ℤ) (default_digs u) := le_max_left _ _
    unfold pySliceByWidth
    split
    · rw [List.length_drop]
      omega
    · rw [List.length_take]
      omega

theorem matchDirective_zero (u : Char) (hu : u = 'H' ∨ u = 'M' ∨ u = 'S' ∨ u = 'm')
    (suf : List Char) : matchDirective ('0' :: u :: suf) = some (some 0, u, suf) := by
  rcases hu with rfl | rfl | rfl | rfl <;> rfl

theorem replacer_zero (tu : ℤ × ℤ × ℤ × ℤ) (u : Char) :
    replacer tu (some 0) u = .error (.valueError "width cannot be 0") := rfl

theorem subGo_directive (tu : ℤ × ℤ × ℤ × ℤ) (f : ℕ) {rest rest2 : List Char}
    {digOpt : Option ℤ} {u : Char} (hhead : ¬ rest.head? = some '%')
    (hmd : matchDirective rest = some (digOpt, u, rest2)) :
    subGo tu (f + 1) ('%' :: rest) = (do
      let rep ← replacer tu digOpt u
      let tl ← subGo tu f rest2
      pure (rep ++ tl)) := by
  rw [subGo_cons, if_pos rfl, if_neg hhead, hmd]

/-- C7: for every elapsed time, a pattern containing a directive with an
explicit width digit string parsing to 0 (such as `%0H`) fails with
`ValueError "width cannot be 0"`; the directive may appear after any
`%`-free prefix and before an arbitrary suffix. -/
theorem claim_C7 (t : ℤ) (u : Char) (hu : u ∈ ['H', 'M', 'S', 'm'])
    (pre suf : String) (hpre : ∀ c ∈ pre.data, c ≠ '%') :
    format_time t (pre ++ String.mk ['%', '0', u] ++ suf)
      = .error (.valueError "width cannot be 0") := by
  have hu' : u = 'H' ∨ u = 'M' ∨ u = 'S' ∨ u = 'm' := by simpa using hu
  have hdata : (pre ++ String.mk ['%', '0', u] ++ suf).data
      = pre.data ++ ('%' :: '0' :: u :: suf.data) := by
    simp [String.data_append]
  simp only [format_time]
  rw [hdata]
  rw [sub_append_nofmt _ pre.data _ _ hpre (by simp)]
  rw [subGo_fuel _ _ ('%' :: '0' :: u :: suf.data).length _ (by simp) (le_refl _)]
  simp only [List.length_cons]
  rw [subGo_directive _ _ (by simp) (matchDirective_zero u hu' suf.data),
    replacer_zero]
  rfl

-- Witness for C7 at t = 0, unit H, empty prefix and suffix: render(0, "%0H") fails.
theorem claim_C7_witness :
    format_time 0 ("" ++ String.mk ['%', '0', 'H'] ++ "")
      = .error (.valueError "width cannot be 0") :=
  claim_C7 0 'H' (by decide) "" "" (by intro c hc; simp at hc)

/-! ## Dangling `%` machinery (claim C8) -/

theorem scanOkGo_cons (f : ℕ) (c : Char) (rest : List Char) :
    scanOkGo (f + 1) (c :: rest) =
      if c = '%' then
        if rest.head? = some '%' then scanOkGo f rest.tail
        else
          match matchDirective rest with
          | some (_, _, rest2) => scanOkGo f rest2
          | none => false
      else scanOkGo f rest := rfl

theorem except_bind_error {α β : Type} (e : Err) (f : α → Except Err β) :
    (Except.error e >>= f) = .error e := rfl

theorem except_map_error {α β : Type} (g : α → β) (e : Err) :
    (g <$> (Except.error e : Except Err α)) = .error e := rfl

theorem except_map_eq_ok {α β : Type} {g : α → β} {x : Except Err α} {y : β}
    (h : (g <$> x) = .ok y) : ∃ a, x = .ok a ∧ y = g a := by
  cases x with
  | error e => exact absurd h (by simp [Except.map, Functor.map])
  | ok a => exact ⟨a, rfl, by simpa [Except.map, Functor.map] using h.symm⟩

theorem except_bind_eq_ok {α β : Type} {x : Except Err α} {g : α → Except Err β} {y : β}
    (h : (x >>= g) = .ok y) : ∃ a, x = .ok a ∧ g a = .ok y := by
  cases x with
  | error e => exact absurd h (by simp [Bind.bind, Except.bind])
  | ok a => exact ⟨a, rfl, h⟩

/-- If a successful substitution output starts with `%`, the scanned pattern
itself started with `%` (directive substitutions never emit `%`, and nonempty
substitutions exist for every directive since the width is nonzero). -/
theorem subGo_ok_head (tu : ℤ × ℤ × ℤ × ℤ) (f : ℕ) (cs : List Char) (r : Char)
    (o2 : List Char) (h : subGo tu f cs = .ok (r :: o2)) :
    r ≠ '%' ∨ cs.head? = some '%' := by
  cases cs with
  | nil =>
    cases f <;> simp [subGo] at h
  | cons c rest =>
    cases f with
    | zero => simp [subGo] at h
    | succ f =>
      rw [subGo_cons] at h
      by_cases hc : c = '%'
      · exact Or.inr (by rw [hc]; rfl)
      · rw [if_neg hc] at h
        obtain ⟨a, _, ha⟩ := except_map_eq_ok h
        have ha2 : r :: o2 = c :: a := ha
        injection ha2 with h1 _
        exact Or.inl (by rw [h1]; exact hc)

/-- If the scan finds a `%` that is not part of an escape or directive, then a
successful substitution pass yields a residual string on which the final
`% ()` step fails. -/
theorem subGo_scanFalse_formatErr (tu : ℤ × ℤ × ℤ × ℤ) :
    ∀ (f : ℕ) (cs o : List Char), cs.length ≤ f → scanOkGo f cs = false →
      subGo tu f cs = .ok o → ∃ e, pyFormatEmpty o = .error e := by
  intro f
  induction f with
  | zero =>
    intro cs o hlen hscan _
    have : cs = [] := List.length_eq_zero.1 (by omega)
    subst this
    simp [scanOkGo] at hscan
  | succ f ih =>
    intro cs o hlen hscan hsub
    cases cs with
    | nil => simp [scanOkGo] at hscan
    | cons c rest =>
      rw [scanOkGo_cons] at hscan
      rw [subGo_cons] at hsub
      simp only [List.length_cons] at hlen
      by_cases hc : c = '%'
      · rw [if_pos hc] at hscan hsub
        by_cases hh : rest.head? = some '%'
        · rw [if_pos hh] at hscan hsub
          obtain ⟨o1, ho1, rfl⟩ := except_map_eq_ok hsub
          obtain ⟨e, he⟩ := ih rest.tail o1 (by simp only [List.length_tail]; omega) hscan ho1
          refine ⟨e, ?_⟩
          show pyFormatEmpty ('%' :: '%' :: o1) = .error e
          rw [pyFormatEmpty_pct_pct, he]
          rfl
        · rw [if_neg hh] at hscan hsub
          cases hmd : matchDirective rest with
          | some v =>
            obtain ⟨digOpt, u, rest2⟩ := v
            rw [hmd] at hscan hsub
            have hscan2 : scanOkGo f rest2 = false := hscan
            have hsub2 : (do
                let rep ← replacer tu digOpt u
                let tl ← subGo tu f rest2
                pure (rep ++ tl)) = Except.ok o := hsub
            obtain ⟨rep, hrep, hsub3⟩ := except_bind_eq_ok hsub2
            obtain ⟨tl, htl, hpure⟩ := except_bind_eq_ok hsub3
            have ho : o = rep ++ tl := by
              have hp : (Except.ok (rep ++ tl) : Except Err (List Char)) = .ok o := hpure
              simp only [Except.ok.injEq] at hp
              exact hp.symm
            subst ho
            have hlen2 : rest2.length ≤ f :=
              Nat.le_of_lt_succ (Nat.lt_of_lt_of_le (matchDirective_length hmd) (by omega))
            obtain ⟨e, he⟩ := ih rest2 tl hlen2 hscan2 htl
            refine ⟨e, ?_⟩
            rw [pyFormatEmpty_append_nofmt rep tl (replacer_chars hrep), he]
            rfl
          | none =>
            rw [hmd] at hsub
            have hsub2 : ((fun l => '%' :: l) <$> subGo tu f rest) = Except.ok o := hsub
            obtain ⟨o1, ho1, rfl⟩ := except_map_eq_ok hsub2
            show ∃ e, pyFormatEmpty ('%' :: o1) = .error e
            cases o1 with
            | nil => exact ⟨.valueError "incomplete format", pyFormatEmpty_pct_end⟩
            | cons r o2 =>
              rcases subGo_ok_head tu f rest r o2 ho1 with hr | hr
              · exact pyFormatEmpty_pct_bad hr o2
              · exact absurd hr hh
      · rw [if_neg hc] at hscan hsub
        obtain ⟨o1, ho1, rfl⟩ := except_map_eq_ok hsub
        obtain ⟨e, he⟩ := ih rest o1 (by omega) hscan ho1
        refine ⟨e, ?_⟩
        show pyFormatEmpty (c :: o1) = .error e
        rw [pyFormatEmpty_nopct_head hc, he]
        rfl

/-- C8: for every elapsed time, a pattern containing a `%` that is not part of
a recognized escape `%%` or directive fails with a format error; nothing is
rendered and no dangling `%` reaches the output. -/
theorem claim_C8 (t : ℤ) (p : String) (h : scanOk p = false) :
    ∃ e, format_time t p = .error e := by
  unfold scanOk at h
  simp only [format_time]
  cases hs : subGo (get_units_from_milliseconds t) p.data.length p.data with
  | error e => exact ⟨e, rfl⟩
  | ok o =>
    obtain ⟨e, he⟩ := subGo_scanFalse_formatErr _ _ _ _ (le_refl _) h hs
    refine ⟨e, ?_⟩
    rw [except_bind_ok, he]
    rfl

-- Witness for C8 at t = 0 and the pattern "%d" (a dangling conversion spec).
theorem claim_C8_witness : ∃ e, format_time 0 "%d" = .error e :=
  claim_C8 0 "%d" (by decide)

/-! ## Output-shape machinery (claim C10) -/

theorem pctMask_nofmt {l : List Char} (h : ∀ c ∈ l, c ≠ '%') :
    pctMask l = List.replicate l.length false := by
  refine List.eq_replicate.2 ⟨by simp [pctMask], ?_⟩
  intro b hb
  unfold pctMask at hb
  rw [List.mem_map] at hb
  obtain ⟨c, hc, rfl⟩ := hb
  simpa using h c hc

/-- Two substitution passes over the same pattern with different elapsed times
produce outputs with `%` in exactly the same positions (directive
substitutions are `%`-free and have the same length, `|storedWidth|`). -/
theorem subGo_mask (tu1 tu2 : ℤ × ℤ × ℤ × ℤ) :
    ∀ (f : ℕ) (cs o1 o2 : List Char), cs.length ≤ f →
      subGo tu1 f cs = .ok o1 → subGo tu2 f cs = .ok o2 → pctMask o1 = pctMask o2 := by
  intro f
  induction f with
  | zero =>
    intro cs o1 o2 hlen h1 h2
    have : cs = [] := List.length_eq_zero.1 (by omega)
    subst this
    simp only [subGo, Except.ok.injEq] at h1 h2
    rw [← h1, ← h2]
  | succ f ih =>
    intro cs o1 o2 hlen h1 h2
    cases cs with
    | nil =>
      simp only [subGo, Except.ok.injEq] at h1 h2
      rw [← h1, ← h2]
    | cons c rest =>
      rw [subGo_cons] at h1 h2
      simp only [List.length_cons] at hlen
      by_cases hc : c = '%'
      · rw [if_pos hc] at h1 h2
        by_cases hh : rest.head? = some '%'
        · rw [if_pos hh] at h1 h2
          obtain ⟨a1, ha1, rfl⟩ := except_map_eq_ok h1
          obtain ⟨a2, ha2, rfl⟩ := except_map_eq_ok h2
          have := ih rest.tail a1 a2 (by simp only [List.length_tail]; omega) ha1 ha2
          show pctMask ('%' :: '%' :: a1) = pctMask ('%' :: '%' :: a2)
          simp only [pctMask, List.map_cons] at this ⊢
          rw [this]
        · rw [if_neg hh] at h1 h2
          cases hmd : matchDirective rest with
          | some v =>
            obtain ⟨digOpt, u, rest2⟩ := v
            rw [hmd] at h1 h2
            have h1b : (do
                let rep ← replacer tu1 digOpt u
                let tl ← subGo tu1 f rest2
                pure (rep ++ tl)) = Except.ok o1 := h1
            have h2b : (do
                let rep ← replacer tu2 digOpt u
                let tl ← subGo tu2 f rest2
                pure (rep ++ tl)) = Except.ok o2 := h2
            obtain ⟨rep1, hrep1, h1c⟩ := except_bind_eq_ok h1b
            obtain ⟨tl1, htl1, hpure1⟩ := except_bind_eq_ok h1c
            obtain ⟨rep2, hrep2, h2c⟩ := except_bind_eq_ok h2b
            obtain ⟨tl2, htl2, hpure2⟩ := except_bind_eq_ok h2c
            have ho1 : o1 = rep1 ++ tl1 := by
              have hp : (Except.ok (rep1 ++ tl1) : Except Err (List Char)) = .ok o1 := hpure1
              simp only [Except.ok.injEq] at hp
              exact hp.symm
            have ho2 : o2 = rep2 ++ tl2 := by
              have hp : (Except.ok (rep2 ++ tl2) : Except Err (List Char)) = .ok o2 := hpure2
              simp only [Except.ok.injEq] at hp
              exact hp.symm
            subst ho1
            subst ho2
            have hlen2 : rest2.length ≤ f :=
              Nat.le_of_lt_succ (Nat.lt_of_lt_of_le (matchDirective_length hmd) (by omega))
            have htails := ih rest2 tl1 tl2 hlen2 htl1 htl2
            have hm1 : pctMask rep1 = List.replicate (storedWidth digOpt u).natAbs false := by
              rw [pctMask_nofmt (replacer_chars hrep1), replacer_length hrep1]
            have hm2 : pctMask rep2 = List.replicate (storedWidth digOpt u).natAbs false := by
              rw [pctMask_nofmt (replacer_chars hrep2), replacer_length hrep2]
            simp only [pctMask, List.map_append] at hm1 hm2 htails ⊢
            rw [hm1, hm2, htails]
          | none =>
            rw [hmd] at h1 h2
            have h1b : ((fun l => '%' :: l) <$> subGo tu1 f rest) = Except.ok o1 := h1
            have h2b : ((fun l => '%' :: l) <$> subGo tu2 f rest) = Except.ok o2 := h2
            obtain ⟨a1, ha1, rfl⟩ := except_map_eq_ok h1b
            obtain ⟨a2, ha2, rfl⟩ := except_map_eq_ok h2b
            have := ih rest a1 a2 (by omega) ha1 ha2
            show pctMask ('%' :: a1) = pctMask ('%' :: a2)
            simp only [pctMask, List.map_cons] at this ⊢
            rw [this]
      · rw [if_neg hc] at h1 h2
        obtain ⟨a1, ha1, rfl⟩ := except_map_eq_ok h1
        obtain ⟨a2, ha2, rfl⟩ := except_map_eq_ok h2
        have := ih rest a1 a2 (by omega) ha1 ha2
        show pctMask (c :: a1) = pctMask (c :: a2)
        simp only [pctMask, List.map_cons] at this ⊢
        rw [this]

/-- If two residual strings have `%` in the same positions and the final
`% ()` step succeeds on both, the outputs have the same length. -/
theorem pyFormatEmpty_mask :
    ∀ (n : ℕ) (o1 o2 r1 r2 : List Char), o1.length ≤ n →
      pctMask o1 = pctMask o2 → pyFormatEmpty o1 = .ok r1 →
      pyFormatEmpty o2 = .ok r2 → r1.length = r2.length := by
  intro n
  induction n with
  | zero =>
    intro o1 o2 r1 r2 hlen hm h1 h2
    have ho1 : o1 = [] := List.length_eq_zero.1 (by omega)
    subst ho1
    have ho2 : o2 = [] := by
      have : pctMask o2 = [] := hm.symm
      simpa [pctMask] using this
    subst ho2
    simp only [pyFormatEmpty, Except.ok.injEq] at h1 h2
    rw [← h1, ← h2]
  | succ n ih =>
    intro o1 o2 r1 r2 hlen hm h1 h2
    cases o1 with
    | nil =>
      have ho2 : o2 = [] := by
        have : pctMask o2 = [] := hm.symm
        simpa [pctMask] using this
      subst ho2
      simp only [pyFormatEmpty, Except.ok.injEq] at h1 h2
      rw [← h1, ← h2]
    | cons c1 t1 =>
      cases o2 with
      | nil => simp [pctMask] at hm
      | cons c2 t2 =>
        simp only [pctMask, List.map_cons, List.cons.injEq] at hm
        obtain ⟨hd, hm2⟩ := hm
        simp only [List.length_cons] at hlen
        by_cases hc1 : c1 = '%'
        · have hc2 : c2 = '%' := by
            subst hc1
            simpa using hd.symm
          subst hc1
          subst hc2
          cases t1 with
          | nil => rw [pyFormatEmpty_pct_end] at h1; exact absurd h1 (by simp)
          | cons rr1 t1b =>
            by_cases hrr1 : rr1 = '%'
            · subst hrr1
              cases t2 with
              | nil => simp [pctMask] at hm2
              | cons rr2 t2b =>
                simp only [pctMask, List.map_cons, List.cons.injEq] at hm2
                obtain ⟨hd2, hm3⟩ := hm2
                have hrr2 : rr2 = '%' := by simpa using hd2.symm
                subst hrr2
                rw [pyFormatEmpty_pct_pct] at h1 h2
                obtain ⟨a1, ha1, rfl⟩ := except_map_eq_ok h1
                obtain ⟨a2, ha2, rfl⟩ := except_map_eq_ok h2
                have := ih t1b t2b a1 a2 (by simp only [List.length_cons] at hlen; omega)
                  hm3 ha1 ha2
                simp only [List.length_cons, this]
            · obtain ⟨e, he⟩ := pyFormatEmpty_pct_bad hrr1 t1b
              rw [he] at h1
              exact absurd h1 (by simp)
        · have hc2 : c2 ≠ '%' := by
            intro h'
            subst h'
            simp at hd
            exact hc1 hd
          rw [pyFormatEmpty_nopct_head hc1] at h1
          rw [pyFormatEmpty_nopct_head hc2] at h2
          obtain ⟨a1, ha1, rfl⟩ := except_map_eq_ok h1
          obtain ⟨a2, ha2, rfl⟩ := except_map_eq_ok h2
          have := ih t1 t2 a1 a2 (by omega) hm2 ha1 ha2
          simp only [List.length_cons, this]

/-- C10: the text substituted for a directive always has exactly
`|storedWidth|` characters (with the per-unit default width when no digits are
given), and consequently, for a fixed pattern, any two successfully rendered
labels have the same length regardless of the elapsed time. -/
theorem claim_C10 :
    (∀ (tu : ℤ × ℤ × ℤ × ℤ) (digOpt : Option ℤ) (u : Char) (rep : List Char),
        replacer tu digOpt u = .ok rep → rep.length = (storedWidth digOpt u).natAbs)
    ∧ ∀ (t1 t2 : ℤ) (p s1 s2 : String),
        format_time t1 p = .ok s1 → format_time t2 p = .ok s2 →
        s1.length = s2.length := by
  constructor
  · intro tu digOpt u rep h
    exact replacer_length h
  · intro t1 t2 p s1 s2 h1 h2
    simp only [format_time] at h1 h2
    obtain ⟨o1, ho1, h1b⟩ := except_bind_eq_ok h1
    obtain ⟨out1, hout1, hp1⟩ := except_bind_eq_ok h1b
    obtain ⟨o2, ho2, h2b⟩ := except_bind_eq_ok h2
    obtain ⟨out2, hout2, hp2⟩ := except_bind_eq_ok h2b
    have hs1 : s1 = String.mk out1 := by
      have hp : (Except.ok (String.mk out1) : Except Err String) = .ok s1 := hp1
      simp only [Except.ok.injEq] at hp
      exact hp.symm
    have hs2 : s2 = String.mk out2 := by
      have hp : (Except.ok (String.mk out2) : Except Err String) = .ok s2 := hp2
      simp only [Except.ok.injEq] at hp
      exact hp.symm
    subst hs1
    subst hs2
    have hmask := subGo_mask (get_units_from_milliseconds t1) (get_units_from_milliseconds t2)
      p.data.length p.data o1 o2 (le_refl _) ho1 ho2
    have hlen := pyFormatEmpty_mask o1.length o1 o2 out1 out2 (le_refl _) hmask hout1 hout2
    show out1.length = out2.length
    exact hlen

-- Witness for C10: the default-width H directive substitutes exactly 2
-- characters, and "%H" renders labels of equal length at 0 ms and at 3725007 ms.
theorem claim_C10_witness :
    (['0', '0'] : List Char).length = (storedWidth none 'H').natAbs
    ∧ ("00" : String).length = ("01" : String).length :=
  ⟨claim_C10.1 (get_units_from_milliseconds 0) none 'H' ['0', '0'] rfl,
   claim_C10.2 0 3725007 "%H" "00" "01" rfl rfl⟩

/-! ## Directive evaluation machinery (amended claim C1) -/

theorem format_time_mk (t : ℤ) (l : List Char) :
    format_time t (String.mk l) = (do
      let subbed ← subGo (get_units_from_milliseconds t) l.length l
      let out ← pyFormatEmpty subbed
      pure (String.mk out)) := rfl

theorem subGo_nil (tu : ℤ × ℤ × ℤ × ℤ) (f : ℕ) : subGo tu f [] = .ok [] := by
  cases f <;> rfl

theorem except_pure_eq_ok {α : Type} (a : α) : (pure a : Except Err α) = .ok a := rfl

theorem pyFormatEmpty_nofmt {l : List Char} (h : ∀ c ∈ l, c ≠ '%') :
    pyFormatEmpty l = .ok l := by
  have h2 := pyFormatEmpty_append_nofmt l [] h
  rw [List.append_nil] at h2
  rw [h2]
  have h3 : pyFormatEmpty ([] : List Char) = .ok [] := rfl
  rw [h3]
  show Except.ok (l ++ []) = Except.ok l
  rw [List.append_nil]

theorem unit_not_pydigit {u : Char} (hu : u = 'H' ∨ u = 'M' ∨ u = 'S' ∨ u = 'm') :
    isPyDigit u = false := by
  rcases hu with rfl | rfl | rfl | rfl <;> decide

theorem ascii_digit_bounds {c : Char} (h : c.isDigit = true) :
    48 ≤ c.toNat ∧ c.toNat ≤ 57 := by
  unfold Char.isDigit at h
  rw [Bool.and_eq_true, decide_eq_true_eq, decide_eq_true_eq] at h
  exact ⟨UInt32.le_toNat_of_le (by decide) h.1, UInt32.toNat_le_of_le (by decide) h.2⟩

/-- An ASCII digit is in particular a Unicode decimal digit. -/
theorem ascii_digit_isPyDigit {c : Char} (h : c.isDigit = true) :
    isPyDigit c = true := by
  obtain ⟨h1, h2⟩ := ascii_digit_bounds h
  unfold isPyDigit
  rw [List.any_eq_true]
  refine ⟨48, by decide, ?_⟩
  simp only [Bool.and_eq_true, decide_eq_true_eq]
  omega

theorem unit_isUnit {u : Char} (hu : u = 'H' ∨ u = 'M' ∨ u = 'S' ∨ u = 'm') :
    isUnitChar u = true := by
  rcases hu with rfl | rfl | rfl | rfl <;> decide

theorem digit_ne_dash {c : Char} (h : Char.isDigit c = true) : c ≠ '-' := by
  intro he
  subst he
  exact absurd h (by decide)

theorem takeWhile_digits_unit (ds : List Char) (hdig : ∀ c ∈ ds, isPyDigit c = true)
    (u : Char) (hu : isPyDigit u = false) :
    (ds ++ [u]).takeWhile isPyDigit = ds
    ∧ (ds ++ [u]).dropWhile isPyDigit = [u] := by
  induction ds with
  | nil => simp [List.takeWhile_cons, List.dropWhile_cons, hu]
  | cons d ds ih =>
    have hd := hdig d (List.mem_cons_self d ds)
    have ih2 := ih (fun c hc => hdig c (List.mem_cons_of_mem _ hc))
    simp [List.takeWhile_cons, List.dropWhile_cons, hd, ih2.1, ih2.2]

theorem replacer_ok (tu : ℤ × ℤ × ℤ × ℤ) (digOpt : Option ℤ) (u : Char)
    (h : storedWidth digOpt u ≠ 0) :
    replacer tu digOpt u = .ok (pySliceByWidth (storedWidth digOpt u)
      (pyRjust (max ((storedWidth digOpt u).natAbs : ℤ) (default_digs u)) '0'
        (pyStrInt (unitVal tu u)))) := by
  simp only [replacer, if_neg h]

/-- Matching a directive made of an optional minus sign, a non-empty digit
string and a unit letter: the parsed digits are the written integer. -/
theorem matchDirective_digits_unit (neg : Bool) (ds : List Char) (hne : ds ≠ [])
    (hdig : ∀ c ∈ ds, Char.isDigit c = true) (u : Char)
    (hu : u = 'H' ∨ u = 'M' ∨ u = 'S' ∨ u = 'm') :
    matchDirective ((if neg then '-' :: ds else ds) ++ [u])
      = some (some (if neg then -(digitsVal ds : ℤ) else (digitsVal ds : ℤ)), u, []) := by
  obtain ⟨d, ds2, rfl⟩ := List.exists_cons_of_ne_nil hne
  have htw := takeWhile_digits_unit (d :: ds2)
    (fun c hc => ascii_digit_isPyDigit (hdig c hc)) u (unit_not_pydigit hu)
  cases neg with
  | false =>
    show matchDirective ((d :: ds2) ++ [u]) = some (some (digitsVal (d :: ds2) : ℤ), u, [])
    unfold matchDirective
    rw [if_neg (by
      simp only [List.cons_append, List.head?_cons, Option.some.injEq]
      exact digit_ne_dash (hdig d (List.mem_cons_self d ds2)))]
    rw [htw.1, htw.2]
    simp [unit_isUnit hu]
  | true =>
    show matchDirective (('-' :: (d :: ds2)) ++ [u])
      = some (some (-(digitsVal (d :: ds2) : ℤ)), u, [])
    unfold matchDirective
    rw [if_pos (by simp)]
    have htail : (('-' :: (d :: ds2)) ++ [u]).tail = (d :: ds2) ++ [u] := rfl
    rw [htail, htw.1, htw.2]
    simp [unit_isUnit hu]

/-- C1 amended: for every elapsed time and every directive with an explicit
digit string (optionally signed), the rendered substitution is the decimal
string of the unit value zero-padded on the left to at least
`max(|w|, default_digs[u])` characters — the floor being the SIGNED stored
default (`-2` for `H`, `M`, `S`; `3` for `m`), so it is effective only for
`m` — where the stored width `w` is the negation of the written integer, and
then truncated to the last `|w|` (for `w < 0`) or first `w` (for `w > 0`)
characters. -/
theorem claim_C1 (t : ℤ) (u : Char) (hu : u ∈ ['H', 'M', 'S', 'm'])
    (ds : List Char) (hne : ds ≠ []) (hdig : ∀ c ∈ ds, Char.isDigit c = true)
    (neg : Bool) (hnz : digitsVal ds ≠ 0) :
    format_time t (String.mk ('%' :: ((if neg then '-' :: ds else ds) ++ [u])))
      = .ok (String.mk (specReplacerSignedPad (get_units_from_milliseconds t)
          (if neg then (digitsVal ds : ℤ) else -(digitsVal ds : ℤ)) u)) := by
  have hu4 : u = 'H' ∨ u = 'M' ∨ u = 'S' ∨ u = 'm' := by simpa using hu
  have hmd := matchDirective_digits_unit neg ds hne hdig u hu4
  set n : ℤ := if neg then -(digitsVal ds : ℤ) else (digitsVal ds : ℤ) with hn
  have hw : storedWidth (some n) u
      = (if neg then (digitsVal ds : ℤ) else -(digitsVal ds : ℤ)) := by
    cases neg <;> simp [storedWidth, hn]
  have hdz : (digitsVal ds : ℤ) ≠ 0 := Int.natCast_ne_zero.mpr hnz
  have hwnz : storedWidth (some n) u ≠ 0 := by
    rw [hw]
    cases neg <;> simpa using hdz
  have hhead : ¬ ((if neg then '-' :: ds else ds) ++ [u]).head? = some '%' := by
    obtain ⟨d, ds2, rfl⟩ := List.exists_cons_of_ne_nil hne
    cases neg with
    | false =>
      show ¬ ((d :: ds2) ++ [u]).head? = some '%'
      simp only [List.cons_append, List.head?_cons, Option.some.injEq]
      intro h'
      have hd := hdig d (List.mem_cons_self d ds2)
      rw [h'] at hd
      exact absurd hd (by decide)
    | true =>
      show ¬ (('-' :: (d :: ds2)) ++ [u]).head? = some '%'
      simp
  rw [format_time_mk]
  simp only [List.length_cons]
  rw [subGo_directive _ _ hhead hmd, replacer_ok _ _ _ hwnz, subGo_nil]
  simp only [except_pure_eq_ok, except_bind_ok]
  rw [List.append_nil,
    pyFormatEmpty_nofmt (replacer_chars (replacer_ok _ (some n) u hwnz)),
    except_bind_ok]
  unfold specReplacerSignedPad
  rw [hw]

-- Witness for the amended C1 at t = 18000000 ms (5 h) and directive %-1H:
-- the padded width is max(1, -2) = 1, so the substitution is "5", not "0".
theorem claim_C1_witness :
    format_time 18000000 (String.mk ('%' :: ((if true then '-' :: ['1'] else ['1']) ++ ['H'])))
      = .ok (String.mk (specReplacerSignedPad (get_units_from_milliseconds 18000000)
          (if true then (digitsVal ['1'] : ℤ) else -(digitsVal ['1'] : ℤ)) 'H')) :=
  claim_C1 18000000 'H' (by decide) ['1'] (by decide) (by decide) true (by decide)
